import Mathlib

/-!
Verification of the peer-ai-loop review orchestrator.

Shallow embedding of the Python sources:
  * `ai_clients.py`  — the `AIResponse` envelope (durations modelled as `Nat`).
  * `aggregator.py`  — `ReviewAggregator.aggregate` and `find_common_themes`.
  * `reviewer.py`    — `ParallelReviewer.review_code` (asyncio time modelled by
    giving every reviewer call an optional settle time; the batch times out
    exactly when some call has not settled by the deadline).
  * `main.py`        — the improvement loop of `run_review_workflow`, its
    artifact temp-file lifecycle, and the disabled-reviewer filter in `main`.
  * `singleton.py`   — the `Singleton` class, single-threaded semantics.

Python `dict` is embedded as an association list with Python's assignment
semantics (an existing key's value is updated in place, a new key is appended),
and Python strings as Lean `String` / `List Char`.
-/

/-- `AIResponse` from `ai_clients.py`: the uniform result envelope.
`execution_time` (a float in Python) is modelled as a `Nat` duration. -/
structure AIResponse where
  success : Bool
  output : String
  errors : Option String
  execution_time : Nat
  model : String
  ai_name : String
deriving DecidableEq, Repr

/-- Python `dict` assignment `d[k] = v`: update the value in place when the key
is present, otherwise append the new pair (insertion order preserved). -/
def dinsert (d : List (String × String)) (k v : String) : List (String × String) :=
  if d.any (fun p => p.1 == k) then
    d.map (fun p => if p.1 == k then (p.1, v) else p)
  else
    d ++ [(k, v)]

/-- Python `dict` lookup `d[k]` / `d.get(k)`. -/
def dlookup (d : List (String × String)) (k : String) : Option String :=
  (d.find? (fun p => p.1 == k)).map (fun p => p.2)

/-- `ReviewSummary` from `aggregator.py`; `reviews_by_ai` is the embedded dict. -/
structure ReviewSummary where
  total_reviews : Nat
  successful_reviews : Nat
  reviews_by_ai : List (String × String)
deriving DecidableEq, Repr

/-- `ReviewAggregator.aggregate`: walk the review list, keeping only
`success == true` entries keyed by `ai_name`, then package the counts. -/
def aggregate (reviews : List AIResponse) : ReviewSummary :=
  let reviews_by_ai :=
    reviews.foldl
      (fun d review => if review.success then dinsert d review.ai_name review.output else d)
      []
  { total_reviews := reviews.length
    successful_reviews := reviews_by_ai.length
    reviews_by_ai := reviews_by_ai }

/-- The dict built by `aggregate`, exposed for reasoning. -/
def aggDict (reviews : List AIResponse) : List (String × String) :=
  reviews.foldl
    (fun d review => if review.success then dinsert d review.ai_name review.output else d)
    []

theorem aggregate_reviews_by_ai (reviews : List AIResponse) :
    (aggregate reviews).reviews_by_ai = aggDict reviews := rfl

theorem aggregate_successful (reviews : List AIResponse) :
    (aggregate reviews).successful_reviews = (aggDict reviews).length := rfl

theorem aggregate_total (reviews : List AIResponse) :
    (aggregate reviews).total_reviews = reviews.length := rfl

theorem dinsert_length (d : List (String × String)) (k v : String) :
    (dinsert d k v).length ≤ d.length + 1 := by
  unfold dinsert
  split
  · simp
  · simp

theorem aggDict_append (rs : List AIResponse) (r : AIResponse) :
    aggDict (rs ++ [r]) =
      (if r.success then dinsert (aggDict rs) r.ai_name r.output else aggDict rs) := by
  unfold aggDict
  rw [List.foldl_append]
  rfl

theorem aggDict_length (reviews : List AIResponse) :
    (aggDict reviews).length ≤ reviews.length := by
  induction reviews using List.reverseRecOn with
  | nil => simp [aggDict]
  | append_singleton rs r ih =>
      rw [aggDict_append]
      split
      · calc (dinsert (aggDict rs) r.ai_name r.output).length
            ≤ (aggDict rs).length + 1 := dinsert_length ..
          _ ≤ rs.length + 1 := by omega
          _ = (rs ++ [r]).length := by simp
      · calc (aggDict rs).length ≤ rs.length := ih
          _ ≤ (rs ++ [r]).length := by simp

theorem aggDict_go (d : List (String × String)) (reviews : List AIResponse)
    (hd : ∀ r ∈ reviews, d.any (fun p => p.1 == r.ai_name) = false)
    (h : (reviews.map AIResponse.ai_name).Nodup) :
    reviews.foldl
        (fun d review => if review.success then dinsert d review.ai_name review.output else d)
        d
      = d ++ (reviews.filter (fun r => r.success)).map (fun r => (r.ai_name, r.output)) := by
  induction reviews generalizing d with
  | nil => simp
  | cons r rest ih =>
      simp only [List.map_cons, List.nodup_cons, List.mem_map] at h
      have hne : ∀ r' ∈ rest, (r.ai_name == r'.ai_name) = false := by
        intro r' hr'
        cases hbeq : r.ai_name == r'.ai_name
        · rfl
        · exact absurd ⟨r', hr', (eq_of_beq hbeq).symm⟩ h.1
      by_cases hs : r.success = true
      · have hins : dinsert d r.ai_name r.output = d ++ [(r.ai_name, r.output)] := by
          unfold dinsert
          rw [if_neg]
          simp [hd r (List.mem_cons_self r rest)]
        rw [List.foldl_cons, if_pos hs, hins,
          ih (d ++ [(r.ai_name, r.output)])
            (by
              intro r' hr'
              simp only [List.any_append, List.any_cons, List.any_nil, Bool.or_false,
                Bool.or_eq_false_iff]
              exact ⟨hd r' (List.mem_cons_of_mem r hr'), hne r' hr'⟩)
            h.2]
        simp [List.filter_cons, hs]
      · rw [List.foldl_cons, if_neg hs,
          ih d (fun r' hr' => hd r' (List.mem_cons_of_mem r hr')) h.2]
        simp [List.filter_cons, hs]

theorem aggDict_of_nodup (reviews : List AIResponse)
    (h : (reviews.map AIResponse.ai_name).Nodup) :
    aggDict reviews = (reviews.filter (fun r => r.success)).map (fun r => (r.ai_name, r.output)) := by
  unfold aggDict
  simpa using aggDict_go [] reviews (by simp) h

theorem dlookup_dinsert (d : List (String × String)) (k v : String) :
    dlookup (dinsert d k v) k = some v := by
  unfold dinsert dlookup
  split
  · rename_i hany
    induction d with
    | nil => simp at hany
    | cons p t ih =>
        by_cases hpk : p.1 == k
        · simp [List.find?, hpk]
        · simp only [List.any_cons, Bool.or_eq_true] at hany
          rcases hany with h | h
          · exact absurd h hpk
          · simpa [List.find?, hpk] using ih h
  · induction d with
    | nil => simp [List.find?]
    | cons p t ih =>
        rename_i hany
        simp only [List.any_cons, Bool.or_eq_true, not_or] at hany
        have hpk : (p.1 == k) = false := by
          cases h : p.1 == k
          · rfl
          · exact absurd h hany.1
        simpa [List.find?, hpk] using ih (by simpa using hany.2)

/-- Concrete responses used to instantiate the theorems below. -/
def respGood : AIResponse :=
  { success := true, output := "looks solid", errors := none,
    execution_time := 1, model := "m1", ai_name := "claude" }

def respDup : AIResponse :=
  { success := true, output := "needs tests", errors := none,
    execution_time := 2, model := "m1", ai_name := "claude" }

def respOther : AIResponse :=
  { success := true, output := "minor nits", errors := none,
    execution_time := 3, model := "m2", ai_name := "gemini" }

def respFail : AIResponse :=
  { success := false, output := "", errors := some "boom",
    execution_time := 4, model := "m3", ai_name := "codex" }

theorem mem_dinsert (d : List (String × String)) (k v : String) :
    ∀ p ∈ dinsert d k v, p ∈ d ∨ p = (k, v) := by
  unfold dinsert
  split
  · intro p hp
    obtain ⟨q, hq, hqe⟩ := List.mem_map.mp hp
    by_cases hqk : q.1 == k
    · right
      rw [← hqe, if_pos hqk, eq_of_beq hqk]
    · left
      rw [← hqe, if_neg hqk]
      exact hq
  · intro p hp
    rcases List.mem_append.mp hp with h | h
    · exact Or.inl h
    · exact Or.inr (List.mem_singleton.mp h)

theorem aggDict_mem_go :
    ∀ (reviews : List AIResponse) (d : List (String × String))
      (p : String × String),
      p ∈ reviews.foldl
        (fun d review => if review.success then dinsert d review.ai_name review.output else d)
        d →
      p ∈ d ∨ ∃ r ∈ reviews, r.success = true ∧ p = (r.ai_name, r.output) := by
  intro reviews
  induction reviews with
  | nil =>
      intro d p hp
      exact Or.inl hp
  | cons r rest ih =>
      intro d p hp
      rw [List.foldl_cons] at hp
      rcases ih _ p hp with hstep | ⟨r', hr', hs', hpe⟩
      · by_cases hs : r.success = true
        · rw [if_pos hs] at hstep
          rcases mem_dinsert d r.ai_name r.output p hstep with hd | hkv
          · exact Or.inl hd
          · exact Or.inr ⟨r, List.mem_cons_self r rest, hs, hkv⟩
        · rw [if_neg hs] at hstep
          exact Or.inl hstep
      · exact Or.inr ⟨r', List.mem_cons_of_mem r hr', hs', hpe⟩

theorem aggDict_mem (reviews : List AIResponse) :
    ∀ p ∈ aggDict reviews, ∃ r ∈ reviews, r.success = true ∧ p = (r.ai_name, r.output) := by
  intro p hp
  rcases aggDict_mem_go reviews [] p hp with hnil | hfrom
  · exact absurd hnil (List.not_mem_nil p)
  · exact hfrom

/-- C5: `aggregate` keeps only `success == true` entries keyed by agent name
(every pair of `reviews_by_ai` is the name/output of some successful input
review, so failed responses are never retained), `successful_reviews` equals
the size of `reviews_by_ai` which is at most `total_reviews`, and a later
entry with a duplicate agent name overwrites the earlier one (the lookup
after aggregating `rs ++ [r]` with `r` successful yields `r`'s output)
without crashing. -/
theorem aggregate_invariant (reviews rs : List AIResponse) (r : AIResponse)
    (h : r.success = true) :
    (∀ p ∈ (aggregate reviews).reviews_by_ai,
      ∃ q ∈ reviews, q.success = true ∧ p = (q.ai_name, q.output)) ∧
    (aggregate reviews).successful_reviews = (aggregate reviews).reviews_by_ai.length ∧
    (aggregate reviews).successful_reviews ≤ (aggregate reviews).total_reviews ∧
    dlookup (aggregate (rs ++ [r])).reviews_by_ai r.ai_name = some r.output := by
  refine ⟨?_, rfl, ?_, ?_⟩
  · rw [aggregate_reviews_by_ai]
    exact aggDict_mem reviews
  · rw [aggregate_successful, aggregate_total]
    exact aggDict_length reviews
  · rw [aggregate_reviews_by_ai, aggDict_append, if_pos h]
    exact dlookup_dinsert ..

theorem aggregate_invariant_witness :
    respDup.success = true ∧
    ((∀ p ∈ (aggregate [respGood, respDup, respFail]).reviews_by_ai,
        ∃ q ∈ [respGood, respDup, respFail], q.success = true ∧ p = (q.ai_name, q.output)) ∧
     (aggregate [respGood, respDup, respFail]).successful_reviews =
        (aggregate [respGood, respDup, respFail]).reviews_by_ai.length ∧
     (aggregate [respGood, respDup, respFail]).successful_reviews ≤
        (aggregate [respGood, respDup, respFail]).total_reviews ∧
     dlookup (aggregate ([respGood] ++ [respDup])).reviews_by_ai respDup.ai_name =
        some respDup.output) :=
  ⟨by decide, aggregate_invariant [respGood, respDup, respFail] [respGood] respDup (by decide)⟩

/-- C7: `aggregate` is invariant under permutation of its input when agent
names are pairwise distinct: total count, success count, and the key/value
pairs of `reviews_by_ai` (as a set) all coincide. -/
theorem aggregate_perm_invariant (l1 l2 : List AIResponse)
    (hperm : l1.Perm l2) (hnodup : (l1.map AIResponse.ai_name).Nodup) :
    (aggregate l1).total_reviews = (aggregate l2).total_reviews ∧
    (aggregate l1).successful_reviews = (aggregate l2).successful_reviews ∧
    ∀ kv, kv ∈ (aggregate l1).reviews_by_ai ↔ kv ∈ (aggregate l2).reviews_by_ai := by
  have hnodup2 : (l2.map AIResponse.ai_name).Nodup :=
    ((hperm.map AIResponse.ai_name).nodup_iff).mp hnodup
  have hfilter : (l1.filter (fun r => r.success)).Perm (l2.filter (fun r => r.success)) :=
    hperm.filter _
  refine ⟨?_, ?_, ?_⟩
  · rw [aggregate_total, aggregate_total]
    exact hperm.length_eq
  · rw [aggregate_successful, aggregate_successful,
      aggDict_of_nodup l1 hnodup, aggDict_of_nodup l2 hnodup2]
    simp [hfilter.length_eq]
  · intro kv
    rw [aggregate_reviews_by_ai, aggregate_reviews_by_ai,
      aggDict_of_nodup l1 hnodup, aggDict_of_nodup l2 hnodup2]
    exact (hfilter.map _).mem_iff

theorem aggregate_perm_invariant_witness :
    ([respGood, respOther].Perm [respOther, respGood] ∧
      ([respGood, respOther].map AIResponse.ai_name).Nodup) ∧
    ((aggregate [respGood, respOther]).total_reviews =
        (aggregate [respOther, respGood]).total_reviews ∧
     (aggregate [respGood, respOther]).successful_reviews =
        (aggregate [respOther, respGood]).successful_reviews ∧
     ∀ kv, kv ∈ (aggregate [respGood, respOther]).reviews_by_ai ↔
        kv ∈ (aggregate [respOther, respGood]).reviews_by_ai) :=
  ⟨⟨List.Perm.swap respOther respGood [], by decide⟩,
    aggregate_perm_invariant [respGood, respOther] [respOther, respGood]
      (List.Perm.swap respOther respGood []) (by decide)⟩

/-- One character-wise step of Python's `in` test: does `needle` start `hay`? -/
def leadMatch : List Char → List Char → Bool
  | [], _ => true
  | _ :: _, [] => false
  | a :: as, b :: bs => a == b && leadMatch as bs

/-- Python `needle in hay` on strings: contiguous-substring scan. -/
def strContains (needle : List Char) : List Char → Bool
  | [] => needle.isEmpty
  | c :: t => leadMatch needle (c :: t) || strContains needle t

/-- Python `str.lower()`, character-wise. -/
def lowerChars (s : List Char) : List Char := s.map Char.toLower

/-- The fixed keyword list of `ReviewAggregator.find_common_themes`. -/
def keywords : List String :=
  ["bug", "错误", "error", "issue", "问题",
   "security", "安全", "performance", "性能",
   "optimize", "优化", "improve", "改进"]

/-- `sum(1 for r in reviews if keyword.lower() in r.output.lower())`. -/
def mentionCount (reviews : List AIResponse) (keyword : String) : Nat :=
  reviews.countP (fun r => strContains (lowerChars keyword.data) (lowerChars r.output.data))

/-- The f-string `f"{keyword} (提到 {count} 次)"` as a character list. -/
def themeText (keyword : String) (count : Nat) : List Char :=
  keyword.data ++ " (提到 ".data ++ Nat.toDigits 10 count ++ " 次)".data

/-- `ReviewAggregator.find_common_themes`: for each keyword in order, append
the annotated theme when at least two reviews mention it. -/
def find_common_themes (reviews : List AIResponse) : List (List Char) :=
  keywords.foldl
    (fun common_themes keyword =>
      if 2 ≤ mentionCount reviews keyword then
        common_themes ++ [themeText keyword (mentionCount reviews keyword)]
      else common_themes)
    []

theorem themes_go (reviews : List AIResponse) (ks : List String)
    (acc : List (List Char)) :
    ks.foldl
        (fun common_themes keyword =>
          if 2 ≤ mentionCount reviews keyword then
            common_themes ++ [themeText keyword (mentionCount reviews keyword)]
          else common_themes)
        acc
      = acc ++ (ks.filter (fun k => 2 ≤ mentionCount reviews k)).map
          (fun k => themeText k (mentionCount reviews k)) := by
  induction ks generalizing acc with
  | nil => simp
  | cons k rest ih =>
      rw [List.foldl_cons]
      by_cases hk : 2 ≤ mentionCount reviews k
      · rw [if_pos hk, ih, List.filter_cons, if_pos (by simpa using hk)]
        simp
      · rw [if_neg hk, ih, List.filter_cons, if_neg (by simpa using hk)]

/-- Review outputs for the consensus-theme scenario. -/
def secReview1 : AIResponse :=
  { success := true, output := "The Security checks are weak", errors := none,
    execution_time := 1, model := "m1", ai_name := "claude" }

def secReview2 : AIResponse :=
  { success := true, output := "add security validation", errors := none,
    execution_time := 2, model := "m2", ai_name := "gemini" }

def perfReview : AIResponse :=
  { success := true, output := "performance looks fine", errors := none,
    execution_time := 3, model := "m3", ai_name := "codex" }

/-- C6: `find_common_themes` is a deterministic, case-insensitive substring
match of the fixed keyword list against each review's raw output; a theme is
emitted exactly when at least two reviews mention it, annotated with its
count, in the fixed keyword-list order (the filter-map characterisation).
In particular, on two reviews containing "security" and one containing
"performance", it emits exactly the "security" theme with count 2 and no
"performance" theme. -/
theorem find_common_themes_spec :
    (∀ reviews : List AIResponse,
      find_common_themes reviews =
        (keywords.filter (fun k => 2 ≤ mentionCount reviews k)).map
          (fun k => themeText k (mentionCount reviews k))) ∧
    mentionCount [secReview1, secReview2, perfReview] "security" = 2 ∧
    mentionCount [secReview1, secReview2, perfReview] "performance" = 1 ∧
    find_common_themes [secReview1, secReview2, perfReview] = [themeText "security" 2] := by
  refine ⟨fun reviews => ?_, by decide, by decide, by decide⟩
  unfold find_common_themes
  simpa using themes_go reviews keywords []

/-- A reviewer `review` call as seen by `asyncio.gather(..., return_exceptions=True)`:
it either produces an `AIResponse` or raises an exception. -/
inductive CallOutcome where
  | response : AIResponse → CallOutcome
  | exn : String → CallOutcome
deriving DecidableEq, Repr

/-- One reviewer task of `ParallelReviewer.review_code`: its eventual outcome
and the time at which it settles (`none` = it never completes). -/
structure ReviewerCall where
  outcome : CallOutcome
  settle : Option Nat
deriving DecidableEq, Repr

/-- Whether a call has settled by time `t`. -/
def settlesBy (c : ReviewerCall) (t : Nat) : Bool :=
  match c.settle with
  | some s => s ≤ t
  | none => false

/-- `ParallelReviewer.review_code`: `asyncio.wait_for` around a gather of all
reviewer tasks.  The gather completes only when every task has settled, so the
global timeout fires exactly when some call has not settled by the deadline;
in that case the `TimeoutError` branch returns `[]`.  Otherwise the gathered
results are filtered: `AIResponse` values with `success` are kept, failing
responses and exceptions are logged and dropped. -/
def review_code (timeout_seconds : Nat) (calls : List ReviewerCall) : List AIResponse :=
  if calls.all (fun c => settlesBy c timeout_seconds) then
    calls.filterMap (fun c =>
      match c.outcome with
      | .response r => if r.success then some r else none
      | .exn _ => none)
  else []

/-- C1: if any reviewer call fails to settle within the global timeout, the
whole batch is abandoned and `review_code` returns the empty list, discarding
even reviews that had already completed successfully before the deadline. -/
theorem review_code_timeout (timeout_seconds : Nat) (calls : List ReviewerCall)
    (h : ∃ c ∈ calls, settlesBy c timeout_seconds = false) :
    review_code timeout_seconds calls = [] := by
  obtain ⟨c, hc, hslow⟩ := h
  unfold review_code
  rw [if_neg]
  intro hall
  rw [List.all_eq_true] at hall
  rw [hall c hc] at hslow
  exact Bool.noConfusion hslow

/-- Witness scenario for C1: one reviewer fails immediately, one never
settles, one succeeds after 1s, with a 5s global timeout — the result is
empty, not a 1-element list. -/
def callFailsFast : ReviewerCall :=
  { outcome := .response respFail, settle := some 0 }

def callNeverSettles : ReviewerCall :=
  { outcome := .response respOther, settle := none }

def callQuickSuccess : ReviewerCall :=
  { outcome := .response respGood, settle := some 1 }

theorem review_code_timeout_witness :
    (∃ c ∈ [callFailsFast, callNeverSettles, callQuickSuccess],
        settlesBy c 5 = false) ∧
    review_code 5 [callFailsFast, callNeverSettles, callQuickSuccess] = [] :=
  ⟨by decide,
    review_code_timeout 5 [callFailsFast, callNeverSettles, callQuickSuccess] (by decide)⟩

/-- C2: when every call settles within the timeout, `review_code` returns
exactly the successful responses: the result is no longer than the reviewer
list, every returned entry has `success = true`, and a response appears in the
result iff some call produced it with `success = true` — so per-agent faults
(exceptions or `success = false`) are dropped without affecting siblings. -/
theorem review_code_success_filter (timeout_seconds : Nat) (calls : List ReviewerCall)
    (hne : calls ≠ [])
    (h : ∀ c ∈ calls, settlesBy c timeout_seconds = true) :
    (review_code timeout_seconds calls).length ≤ calls.length ∧
    (∀ r ∈ review_code timeout_seconds calls, r.success = true) ∧
    (∀ r : AIResponse, r ∈ review_code timeout_seconds calls ↔
      ∃ c ∈ calls, c.outcome = CallOutcome.response r ∧ r.success = true) := by
  have hrw : review_code timeout_seconds calls =
      calls.filterMap (fun c =>
        match c.outcome with
        | .response r => if r.success then some r else none
        | .exn _ => none) := by
    unfold review_code
    rw [if_pos (List.all_eq_true.mpr h)]
  have hmem : ∀ r : AIResponse, r ∈ review_code timeout_seconds calls ↔
      ∃ c ∈ calls, c.outcome = CallOutcome.response r ∧ r.success = true := by
    intro r
    rw [hrw, List.mem_filterMap]
    constructor
    · rintro ⟨c, hc, hf⟩
      refine ⟨c, hc, ?_⟩
      cases hout : c.outcome with
      | response r' =>
          rw [hout] at hf
          by_cases hs : r'.success = true
          · simp only [hs, if_true] at hf
            cases hf
            exact ⟨rfl, hs⟩
          · simp only [if_neg hs] at hf
            cases hf
      | exn e =>
          rw [hout] at hf
          cases hf
    · rintro ⟨c, hc, hout, hs⟩
      exact ⟨c, hc, by rw [hout]; simp [hs]⟩
  refine ⟨?_, ?_, hmem⟩
  · rw [hrw]
    exact List.length_filterMap_le ..
  · intro r hr
    exact ((hmem r).mp hr).choose_spec.2.2

/-- Witness scenario for C2: a successful response, a failing response and an
exception, all settling within the timeout — only the success is returned. -/
def callRaises : ReviewerCall :=
  { outcome := .exn "transport error", settle := some 2 }

theorem review_code_success_filter_witness :
    ([callQuickSuccess, callFailsFast, callRaises] ≠ [] ∧
      (∀ c ∈ [callQuickSuccess, callFailsFast, callRaises], settlesBy c 5 = true)) ∧
    ((review_code 5 [callQuickSuccess, callFailsFast, callRaises]).length ≤
        ([callQuickSuccess, callFailsFast, callRaises] : List ReviewerCall).length ∧
     (∀ r ∈ review_code 5 [callQuickSuccess, callFailsFast, callRaises], r.success = true) ∧
     (∀ r : AIResponse, r ∈ review_code 5 [callQuickSuccess, callFailsFast, callRaises] ↔
        ∃ c ∈ [callQuickSuccess, callFailsFast, callRaises],
          c.outcome = CallOutcome.response r ∧ r.success = true)) :=
  ⟨⟨by decide, by decide⟩,
    review_code_success_filter 5 [callQuickSuccess, callFailsFast, callRaises]
      (by decide) (by decide)⟩

/-- A reviewer client as seen by the improvement loop of `run_review_workflow`:
its `name`, whether `hasattr(reviewer, 'improve_file')`, and the effect of its
`improve_file` call, modelled on the artifact's content: given the current
artifact content, the review output and the original prompt it yields the
`AIResponse` and the artifact content its process leaves behind. -/
structure Agent where
  name : String
  hasImproveFile : Bool
  improveFile : String → String → String → AIResponse × String

/-- State threaded through the improvement loop: the `improvement_logs` dict
and the artifact content, together with a ghost record of every `improve_file`
invocation (key used, response obtained) in call order. -/
structure LoopState where
  invocations : List (String × AIResponse)
  improvement_logs : List (String × String)
  artifact : String

/-- One iteration of the Phase-3 loop in `run_review_workflow`: look the
reviewer up by the review's `ai_name`; skip when absent or lacking
`improve_file`; otherwise invoke `improve_file` and record the output in
`improvement_logs` only when `improved.success`. -/
def improveStep (prompt : String) (reviewers : List Agent)
    (s : LoopState) (review : AIResponse) : LoopState :=
  match reviewers.find? (fun r => r.name == review.ai_name) with
  | none => s
  | some reviewer =>
    if reviewer.hasImproveFile then
      let call := reviewer.improveFile s.artifact review.output prompt
      { invocations := s.invocations ++ [(review.ai_name, call.1)]
        improvement_logs :=
          if call.1.success then dinsert s.improvement_logs review.ai_name call.1.output
          else s.improvement_logs
        artifact := call.2 }
    else s

/-- The Phase-3 improvement loop of `run_review_workflow`, iterating the
successful reviews in order over the shared artifact. -/
def improvementLoop (prompt : String) (reviewers : List Agent)
    (artifact0 : String) (review_results : List AIResponse) : LoopState :=
  review_results.foldl (improveStep prompt reviewers) ⟨[], [], artifact0⟩

/-- The improvement log obtained by replaying an invocation record, keeping
only successful responses. -/
def buildLogs (invs : List (String × AIResponse)) : List (String × String) :=
  invs.foldl (fun d p => if p.2.success then dinsert d p.1 p.2.output else d) []

theorem improvement_go (prompt : String) (reviewers : List Agent)
    (reviews : List AIResponse) (s : LoopState) :
    ∃ delta : List (String × AIResponse),
      (reviews.foldl (improveStep prompt reviewers) s).invocations
          = s.invocations ++ delta ∧
      (reviews.foldl (improveStep prompt reviewers) s).improvement_logs
          = delta.foldl (fun d p => if p.2.success then dinsert d p.1 p.2.output else d)
              s.improvement_logs := by
  induction reviews generalizing s with
  | nil => exact ⟨[], by simp, by simp⟩
  | cons review rest ih =>
      rw [List.foldl_cons]
      cases hfind : reviewers.find? (fun r => r.name == review.ai_name) with
      | none =>
          have hstep : improveStep prompt reviewers s review = s := by
            simp only [improveStep, hfind]
          rw [hstep]
          exact ih s
      | some reviewer =>
          by_cases hcap : reviewer.hasImproveFile = true
          · have hstep : improveStep prompt reviewers s review =
                { invocations := s.invocations ++
                    [(review.ai_name, (reviewer.improveFile s.artifact review.output prompt).1)]
                  improvement_logs :=
                    if (reviewer.improveFile s.artifact review.output prompt).1.success then
                      dinsert s.improvement_logs review.ai_name
                        (reviewer.improveFile s.artifact review.output prompt).1.output
                    else s.improvement_logs
                  artifact := (reviewer.improveFile s.artifact review.output prompt).2 } := by
              simp only [improveStep, hfind, hcap, if_true]
            obtain ⟨delta, h1, h2⟩ := ih (improveStep prompt reviewers s review)
            refine ⟨(review.ai_name, (reviewer.improveFile s.artifact review.output prompt).1)
                :: delta, ?_, ?_⟩
            · rw [h1, hstep]
              simp
            · rw [h2, List.foldl_cons]
              rw [hstep]
          · have hstep : improveStep prompt reviewers s review = s := by
              simp only [improveStep, hfind, if_neg hcap]
            rw [hstep]
            exact ih s

/-- C3 (amended): the improvement log retains exactly the successful
invocations — it equals the success-filtered replay of the invocation record,
so a failing `improve_file` response is not recorded. -/
theorem improvement_logs_eq (prompt : String) (reviewers : List Agent)
    (artifact0 : String) (reviews : List AIResponse) :
    (improvementLoop prompt reviewers artifact0 reviews).improvement_logs =
      buildLogs (improvementLoop prompt reviewers artifact0 reviews).invocations := by
  unfold improvementLoop buildLogs
  obtain ⟨delta, h1, h2⟩ :=
    improvement_go prompt reviewers reviews ⟨[], [], artifact0⟩
  rw [h1, h2]
  simp

/-- A failing `improve_file` response from the "claude" reviewer. -/
def improveFailResp : AIResponse :=
  { success := false, output := "could not edit", errors := some "edit refused",
    execution_time := 1, model := "m1", ai_name := "claude" }

/-- A reviewer whose `improve_file` call always fails. -/
def agentFailImprove : Agent :=
  { name := "claude", hasImproveFile := true,
    improveFile := fun content _ _ => (improveFailResp, content) }

/-- C3 counterexample: an `improve_file` invocation whose response has
`success = false` is invoked (the record shows it) but leaves no entry in
`improvement_logs` — the response is not recorded "regardless of
success/failure". -/
theorem improvement_log_drops_failure :
    (improvementLoop "task" [agentFailImprove] "code" [respGood]).invocations
        = [("claude", improveFailResp)] ∧
    dlookup (improvementLoop "task" [agentFailImprove] "code" [respGood]).improvement_logs
        "claude" = none := by
  constructor
  · rfl
  · rfl

/-- C4: on reviewers `[A, B]` where only `A` exposes `improve_file`, the loop
(walking the reviews in received order) invokes `A` exactly once, never
invokes `B`, and records no improvement-log entry for `B`. -/
theorem improve_capability_gate (A B : Agent) (ra rb : AIResponse)
    (prompt artifact0 : String)
    (hA : A.hasImproveFile = true) (hB : B.hasImproveFile = false)
    (hra : ra.ai_name = A.name) (hrb : rb.ai_name = B.name)
    (hAB : A.name ≠ B.name) :
    (improvementLoop prompt [A, B] artifact0 [ra, rb]).invocations.map Prod.fst
        = [A.name] ∧
    (∀ p ∈ (improvementLoop prompt [A, B] artifact0 [ra, rb]).improvement_logs,
        p.1 ≠ B.name) := by
  have hfindA : [A, B].find? (fun r => r.name == ra.ai_name) = some A := by
    simp [List.find?, hra]
  have hfindB : [A, B].find? (fun r => r.name == rb.ai_name) = some B := by
    have h1 : (A.name == B.name) = false := beq_eq_false_iff_ne.mpr hAB
    simp [List.find?, hrb, h1]
  have hloop : improvementLoop prompt [A, B] artifact0 [ra, rb] =
      improveStep prompt [A, B] (improveStep prompt [A, B] ⟨[], [], artifact0⟩ ra) rb := by
    simp [improvementLoop]
  have hstepA : improveStep prompt [A, B] ⟨[], [], artifact0⟩ ra =
      { invocations := [(ra.ai_name, (A.improveFile artifact0 ra.output prompt).1)]
        improvement_logs :=
          if (A.improveFile artifact0 ra.output prompt).1.success then
            dinsert [] ra.ai_name (A.improveFile artifact0 ra.output prompt).1.output
          else []
        artifact := (A.improveFile artifact0 ra.output prompt).2 } := by
    simp only [improveStep, hfindA, hA, if_true, List.nil_append]
  have hstepB : ∀ s : LoopState, improveStep prompt [A, B] s rb = s := by
    intro s
    simp only [improveStep, hfindB, hB, Bool.false_eq_true, if_false]
  rw [hloop, hstepB, hstepA]
  constructor
  · simp [hra]
  · intro p hp
    by_cases hs : (A.improveFile artifact0 ra.output prompt).1.success = true
    · simp only [hs, if_true, dinsert, List.any_nil, Bool.false_eq_true, if_false,
        List.nil_append, List.mem_singleton] at hp
      rw [hp, hra]
      exact hAB
    · simp only [if_neg hs, List.not_mem_nil] at hp

/-- A successful `improve_file` response. -/
def improveOkResp : AIResponse :=
  { success := true, output := "edited the file", errors := none,
    execution_time := 2, model := "m1", ai_name := "claude" }

/-- A reviewer exposing `improve_file`; its edit appends a fix marker. -/
def agentImprover : Agent :=
  { name := "claude", hasImproveFile := true,
    improveFile := fun content _ _ => (improveOkResp, content ++ "\n# fixed") }

/-- A reviewer without the `improve_file` capability. -/
def agentNoImprove : Agent :=
  { name := "codex", hasImproveFile := false,
    improveFile := fun content _ _ => (improveOkResp, content) }

theorem improve_capability_gate_witness :
    (agentImprover.hasImproveFile = true ∧ agentNoImprove.hasImproveFile = false ∧
     respGood.ai_name = agentImprover.name ∧ respFail.ai_name = agentNoImprove.name ∧
     agentImprover.name ≠ agentNoImprove.name) ∧
    ((improvementLoop "task" [agentImprover, agentNoImprove] "code"
        [respGood, respFail]).invocations.map Prod.fst = [agentImprover.name] ∧
     (∀ p ∈ (improvementLoop "task" [agentImprover, agentNoImprove] "code"
        [respGood, respFail]).improvement_logs, p.1 ≠ agentNoImprove.name)) :=
  ⟨⟨rfl, rfl, rfl, rfl, by decide⟩,
    improve_capability_gate agentImprover agentNoImprove respGood respFail
      "task" "code" rfl rfl rfl rfl (by decide)⟩

/-- A file system as a mapping path → content; writing has the same
update-or-append semantics as dict assignment. -/
structure FileSystem where
  files : List (String × String)
deriving DecidableEq, Repr

def fsWrite (fs : FileSystem) (path content : String) : FileSystem :=
  ⟨dinsert fs.files path content⟩

def fsRead (fs : FileSystem) (path : String) : Option String :=
  dlookup fs.files path

/-- The artifact-file lifecycle of `run_review_workflow` (Phase 3 onwards).
When iteration is enabled and some reviews succeeded, the function creates the
temp file with `tempfile.NamedTemporaryFile(delete=False)` and writes the
implementation output to it; the reviewers' sequential `improve_file` edits
are modelled by threading the content through `improvementLoop` and writing
the cumulative result; the final content is read back for the report.  No
statement in the function deletes `code_file`, so the model performs no
delete. -/
def run_review_workflow_fs (fs0 : FileSystem) (code_file : String)
    (implementation : AIResponse) (prompt : String) (reviewers : List Agent)
    (review_results : List AIResponse) (enable_iteration : Bool) :
    FileSystem × Option String :=
  if enable_iteration && !review_results.isEmpty then
    let fs1 := fsWrite fs0 code_file implementation.output
    let final := improvementLoop prompt reviewers implementation.output review_results
    let fs2 := fsWrite fs1 code_file final.artifact
    (fs2, fsRead fs2 code_file)
  else (fs0, none)

/-- C8 counterexample: a concrete successful run after which the artifact temp
file still exists (with the improved content) — it was not deleted at run
end. -/
theorem artifact_file_not_deleted :
    fsRead (run_review_workflow_fs ⟨[]⟩ "/tmp/tmp123.py" respGood "task"
        [agentImprover] [respGood] true).1 "/tmp/tmp123.py"
      = some "looks solid\n# fixed" := by
  decide

/-- C8 (amended): whenever the improvement phase runs (iteration enabled and
at least one successful review), the artifact temp file persists after the
workflow run — it is never deleted, and at run end it holds the final
improved content. -/
theorem artifact_file_persists (fs0 : FileSystem) (code_file : String)
    (implementation : AIResponse) (prompt : String) (reviewers : List Agent)
    (review_results : List AIResponse)
    (hres : review_results ≠ []) :
    fsRead (run_review_workflow_fs fs0 code_file implementation prompt reviewers
        review_results true).1 code_file
      = some (improvementLoop prompt reviewers implementation.output review_results).artifact := by
  have hempty : review_results.isEmpty = false := by
    cases review_results with
    | nil => exact absurd rfl hres
    | cons a t => rfl
  unfold run_review_workflow_fs
  rw [if_pos (by rw [hempty]; rfl)]
  exact dlookup_dinsert ..

theorem artifact_file_persists_witness :
    ([respGood] ≠ ([] : List AIResponse)) ∧
    fsRead (run_review_workflow_fs ⟨[]⟩ "/tmp/tmp456.py" respGood "task"
        [agentImprover] [respGood] true).1 "/tmp/tmp456.py"
      = some (improvementLoop "task" [agentImprover] respGood.output [respGood]).artifact :=
  ⟨by decide,
    artifact_file_persists ⟨[]⟩ "/tmp/tmp456.py" respGood "task" [agentImprover]
      [respGood] (by decide)⟩

/-- The disabled-reviewer filter in `main`:
`for reviewer in reviewer_list: if not enabled: reviewer_list.remove(reviewer)`.
Python's list iterator fetches by position; `list.remove` deletes the first
occurrence of the value, shifting later elements down, so after a removal the
iterator skips the element that slides into the removed slot.  `i` is the
iterator's next fetch position. -/
def disabledFilterLoop (enabled : String → Bool) (l : List String) (i : Nat) : List String :=
  if h : i < l.length then
    if enabled (l.get ⟨i, h⟩) then disabledFilterLoop enabled l (i + 1)
    else disabledFilterLoop enabled (l.erase (l.get ⟨i, h⟩)) (i + 1)
  else l
termination_by l.length - i
decreasing_by
  · omega
  · have hm : (l.get ⟨i, h⟩) ∈ l := l.get_mem ..
    have := List.length_erase_of_mem hm
    omega

/-- The whole filter pass of `main` over `reviewer_list`. -/
def reviewerFilter (enabled : String → Bool) (reviewer_list : List String) : List String :=
  disabledFilterLoop enabled reviewer_list 0

theorem dfl_stop (enabled : String → Bool) (l : List String) (i : Nat)
    (h : ¬ i < l.length) :
    disabledFilterLoop enabled l i = l := by
  rw [disabledFilterLoop]
  rw [dif_neg h]

theorem dfl_keep (enabled : String → Bool) (l : List String) (i : Nat)
    (h : i < l.length) (he : enabled (l.get ⟨i, h⟩) = true) :
    disabledFilterLoop enabled l i = disabledFilterLoop enabled l (i + 1) := by
  rw [disabledFilterLoop]
  rw [dif_pos h, if_pos he]

theorem dfl_drop (enabled : String → Bool) (l : List String) (i : Nat)
    (h : i < l.length) (he : enabled (l.get ⟨i, h⟩) = false) :
    disabledFilterLoop enabled l i
      = disabledFilterLoop enabled (l.erase (l.get ⟨i, h⟩)) (i + 1) := by
  rw [disabledFilterLoop]
  rw [dif_pos h, if_neg (by rw [he]; simp)]

theorem dfl_all_enabled (enabled : String → Bool) :
    ∀ n (l : List String) (i : Nat), l.length - i ≤ n →
      (∀ k (hk : k < l.length), i ≤ k → enabled (l.get ⟨k, hk⟩) = true) →
      disabledFilterLoop enabled l i = l := by
  intro n
  induction n with
  | zero =>
      intro l i hle _
      exact dfl_stop _ _ _ (by omega)
  | succ n ih =>
      intro l i hle hall
      by_cases h : i < l.length
      · rw [dfl_keep _ _ _ h (hall i h (le_refl i))]
        exact ih l (i + 1) (by omega) (fun k hk hik => hall k hk (by omega))
      · exact dfl_stop _ _ _ h

theorem dfl_advance (enabled : String → Bool) :
    ∀ n (l : List String) (i : Nat),
      (∀ k (hk : k < l.length), i ≤ k → k < i + n → enabled (l.get ⟨k, hk⟩) = true) →
      disabledFilterLoop enabled l i = disabledFilterLoop enabled l (i + n) := by
  intro n
  induction n with
  | zero => intro l i _; rfl
  | succ n ih =>
      intro l i hall
      by_cases h : i < l.length
      · rw [dfl_keep _ _ _ h (hall i h (le_refl i) (by omega))]
        rw [ih l (i + 1) (fun k hk h1 h2 => hall k hk (by omega) (by omega))]
        congr 1
        omega
      · rw [dfl_stop _ _ _ h, dfl_stop _ _ _ (by simp at h ⊢; omega)]

/-- C9 counterexample: with `["claude", "gemini", "codex"]` all disabled, the
pair ("gemini", "codex") is adjacent and both are disabled, yet the second of
the pair ("codex") does NOT remain after the loop — the loop instead leaves
exactly ["gemini"], so the claim's universally quantified form is false. -/
theorem reviewer_filter_cex :
    reviewerFilter (fun _ => false) ["claude", "gemini", "codex"] = ["gemini"] ∧
    "codex" ∉ reviewerFilter (fun _ => false) ["claude", "gemini", "codex"] := by
  have hrun : reviewerFilter (fun _ => false) ["claude", "gemini", "codex"] = ["gemini"] := by
    unfold reviewerFilter
    rw [dfl_drop (fun _ => false) ["claude", "gemini", "codex"] 0 (by norm_num) rfl]
    show disabledFilterLoop (fun _ => false) ["gemini", "codex"] 1 = ["gemini"]
    rw [dfl_drop (fun _ => false) ["gemini", "codex"] 1 (by norm_num) rfl]
    show disabledFilterLoop (fun _ => false) ["gemini"] 2 = ["gemini"]
    exact dfl_stop _ _ _ (by norm_num)
  exact ⟨hrun, by rw [hrun]; decide⟩

/-- C9 (amended): the mutate-while-iterating filter does not remove every
disabled reviewer.  When the disabled reviewers form one adjacent pair
(everything else enabled), the loop removes the first of the pair and then
skips the second, which therefore remains in `reviewer_list` after the loop —
and `main` goes on using that list as its reviewers — despite being
disabled. -/
theorem reviewer_filter_skips_follower (enabled : String → Bool)
    (xs ys : List String) (d1 d2 : String)
    (hxs : ∀ x ∈ xs, enabled x = true) (hys : ∀ y ∈ ys, enabled y = true)
    (hd1 : enabled d1 = false) (hd2 : enabled d2 = false)
    (hd1xs : d1 ∉ xs) :
    reviewerFilter enabled (xs ++ d1 :: d2 :: ys) = xs ++ d2 :: ys ∧
    d2 ∈ reviewerFilter enabled (xs ++ d1 :: d2 :: ys) := by
  have hlen : xs.length < (xs ++ d1 :: d2 :: ys).length := by simp
  have hget : (xs ++ d1 :: d2 :: ys).get ⟨xs.length, hlen⟩ = d1 := by
    simp [List.get_eq_getElem, List.getElem_append_right (le_refl xs.length)]
  have hrun : reviewerFilter enabled (xs ++ d1 :: d2 :: ys) = xs ++ d2 :: ys := by
    unfold reviewerFilter
    rw [dfl_advance enabled xs.length (xs ++ d1 :: d2 :: ys) 0
      (by
        intro k hk _ hklt
        rw [Nat.zero_add] at hklt
        have hkxs : k < xs.length := hklt
        rw [show (xs ++ d1 :: d2 :: ys).get ⟨k, hk⟩ = xs.get ⟨k, hkxs⟩ by
          simp [List.get_eq_getElem, List.getElem_append_left hkxs]]
        exact hxs _ (xs.get_mem ..))]
    rw [Nat.zero_add]
    rw [dfl_drop enabled _ xs.length hlen (by rw [hget]; exact hd1)]
    rw [hget, List.erase_append_right _ hd1xs, List.erase_cons_head]
    refine dfl_all_enabled enabled (xs ++ d2 :: ys).length _ _ (by omega) ?_
    intro k hk hik
    have hxsle : xs.length ≤ k := by omega
    simp only [List.get_eq_getElem]
    rw [List.getElem_append_right hxsle]
    obtain ⟨m, hm⟩ : ∃ m, k - xs.length = m + 1 := ⟨k - xs.length - 1, by omega⟩
    simp only [hm, List.getElem_cons_succ]
    exact hys _ (List.getElem_mem ..)
  exact ⟨hrun, by rw [hrun]; simp⟩

theorem reviewer_filter_skips_follower_witness :
    ((∀ x ∈ ["claude"], (fun s => s == "claude") x = true) ∧
     (∀ y ∈ ([] : List String), (fun s => s == "claude") y = true) ∧
     (fun s => s == "claude") "gemini" = false ∧
     (fun s => s == "claude") "codex" = false ∧
     "gemini" ∉ ["claude"]) ∧
    (reviewerFilter (fun s => s == "claude") (["claude"] ++ "gemini" :: "codex" :: [])
        = ["claude"] ++ "codex" :: [] ∧
     "codex" ∈ reviewerFilter (fun s => s == "claude")
        (["claude"] ++ "gemini" :: "codex" :: [])) :=
  ⟨⟨by decide, by decide, by decide, by decide, by decide⟩,
    reviewer_filter_skips_follower (fun s => s == "claude") ["claude"] []
      "gemini" "codex" (by decide) (by decide) (by decide) (by decide) (by decide)⟩

/-- One `Singleton` instance from `singleton.py`: its `value` attribute
(`None`-able) and its `_initialized` flag (`false` models the attribute being
absent). -/
structure SingletonInst (α : Type) where
  value : Option α
  initialized : Bool

/-- `Singleton(v)` under single-threaded semantics: `__new__` returns the
stored class-level `_instance` if present (instances are always truthy, so
`if not cls._instance` is a `none` test), otherwise allocates a bare
instance and stores it; `__init__` then returns immediately when
`_initialized` is already set, else assigns `value` and sets the flag.
Returns the instance handed back to the caller and the new `_instance`
slot. -/
def constructSingleton {α : Type} (instSlot : Option (SingletonInst α)) (v : Option α) :
    SingletonInst α × Option (SingletonInst α) :=
  let inst :=
    match instSlot with
    | none => { value := none, initialized := false }
    | some i => i
  let inst2 := if inst.initialized then inst else { value := v, initialized := true }
  (inst2, some inst2)

/-- Repeated construction: `Singleton(v)` once per element of `vs`, threading
the class-level `_instance` slot; returns each call's result in order and the
final slot. -/
def constructMany {α : Type} (vs : List (Option α)) (instSlot : Option (SingletonInst α)) :
    List (SingletonInst α) × Option (SingletonInst α) :=
  match vs with
  | [] => ([], instSlot)
  | v :: rest =>
    let r := constructSingleton instSlot v
    let rr := constructMany rest r.2
    (r.1 :: rr.1, rr.2)

/-- C10: after `Singleton(v1)` initializes the unique instance with `v1`,
every later construction — whatever value argument it is given — returns that
same stored instance, leaves the `_instance` slot unchanged, and the instance
still carries `v1`. -/
theorem singleton_first_value_wins (α : Type) (v1 : Option α) (vs : List (Option α)) :
    (constructSingleton (α := α) none v1).1.value = v1 ∧
    constructMany vs (constructSingleton (α := α) none v1).2 =
      (vs.map fun _ => (constructSingleton (α := α) none v1).1,
       (constructSingleton (α := α) none v1).2) := by
  refine ⟨rfl, ?_⟩
  have hfirst : (constructSingleton (α := α) none v1).2
      = some { value := v1, initialized := true } := rfl
  rw [hfirst]
  induction vs with
  | nil => rfl
  | cons v rest ih =>
      simp only [constructMany]
      rw [show constructSingleton (some { value := v1, initialized := true }) v
          = ({ value := v1, initialized := true }, some { value := v1, initialized := true })
        from rfl]
      rw [ih]
      rfl
